import Mathlib

/-!
Verification of the EveryVoice interactive wizard engine
(`everyvoice/wizard/__init__.py`): steps, tours, state scopes, the retry
circuit breaker, the keyboard-interrupt recovery menu, and dynamic tree
growth.  Python classes are embedded as Lean structures, mutation as
explicit state passing, and `sys.exit` / raised exceptions as explicit
result constructors.
-/

namespace EV

/-- A value held in a wizard `State`: a user response (string or number)
or a nested sub-`State` (as created by `determine_state` for a
`state_subset`). -/
inductive Val where
  | vstr : String → Val
  | vnat : Nat → Val
  | vstate : List (String × Val) → Val

/-- Modelled from the spec: the wizard's `State` type is `EnumDict` from
`everyvoice/wizard/utils.py`, which is not under `src/`.  Per the spec it
is "an ordered key-to-value mapping with nested-scope support", i.e. a
Python-dict-like ordered map.  We embed it as an ordered association
list with dict semantics: assignment updates the first matching key in
place or appends a fresh key at the end; deletion removes the key and
fails (Python `KeyError`) when the key is absent. -/
abbrev StateM := List (String × Val)

/-- `state[k]`, as an `Option` (Python raises `KeyError` on a miss; the
claims only read keys, so `none` encodes absence). -/
def getKey : StateM → String → Option Val
  | [], _ => none
  | (k0, v0) :: rest, k => if k0 = k then some v0 else getKey rest k

/-- `state[k] = v`: replace the first binding of `k` in place, or append
`(k, v)` when `k` is absent. -/
def setKey : StateM → String → Val → StateM
  | [], k, v => [(k, v)]
  | (k0, v0) :: rest, k, v =>
      if k0 = k then (k, v) :: rest else (k0, v0) :: setKey rest k v

/-- `del state[k]`: `some` of the shrunken map, or `none` when `k` is
absent (Python raises `KeyError`). -/
def delKey : StateM → String → Option StateM
  | [], _ => none
  | (k0, v0) :: rest, k =>
      if k0 = k then some rest
      else match delKey rest k with
        | some rest' => some ((k0, v0) :: rest')
        | none => none

/-- A map whose keys are pairwise distinct, as Python dicts always are. -/
def dupFree : StateM → Bool
  | [] => true
  | (k0, _) :: rest => (!rest.any (fun kv => kv.1 == k0)) && dupFree rest

/-- The scope a step's `state` attribute points at, resolved against the
owning tour's top-level state: the top-level `State` itself, or the
sub-`State` stored under a `state_subset` key.  (Python stores a direct
object reference; we store the path from the tour's state.) -/
inductive ScopeRef where
  | top : ScopeRef
  | sub : String → ScopeRef
deriving DecidableEq

/-- The per-object attributes of a `Step` (`_Step.__init__` and
`Step.__init__`): `name`, `response`, `completed`,
`_validation_failures`, `state_subset`, and the `state`/`tour` bindings
that are `None` until the step is added to a `Tour`.  `reversible` is
the (constant) value the step's `is_reversible()` returns, which
subclasses override; the base class returns `False`. -/
structure SData where
  name : String
  stateSubset : Option String
  response : Option Val
  completed : Bool
  failures : Nat
  stateRef : Option ScopeRef
  hasTour : Bool
  reversible : Bool

/-- The behaviour a concrete `Step` subclass supplies: the stream of raw
answers its `prompt()` returns on the successive attempts of one `run()`
retry chain, `sanitize_input`, and `validate`. -/
structure StepBehavior where
  prompts : Nat → Val
  sanitize : Val → Val
  validate : Val → Bool

/-- Observable events of one `Tour.run` iteration, in order: a `prompt()`
call, a `validate` returning `b`, the commit `state[name] = response`,
the `effect()` call, and the tour asking `node.next()` for the
successor. -/
inductive Ev where
  | prompted : Ev
  | validated : Bool → Ev
  | committed : Ev
  | effected : Ev
  | askNext : Ev
deriving DecidableEq

/-- Outcome of `Step.run()`: `exited code` for `sys.exit(code)`, or
`done ret s scope` with the value the outermost call returns (`none`
encodes Python `None`), the mutated step and the mutated scope. -/
inductive RunOut where
  | exited : Nat → RunOut
  | done : Option Val → SData → Option StateM → RunOut

/-- `Step.run()` (source lines 101-124).  One frame prompts, sanitizes,
validates; on success it sets `completed`, commits into the scope when
the step is bound (`if self.state is not None`), returns the response
and fires `effect()` (the `try/finally` runs the effect after the commit
and before the return completes); on failure it bumps
`_validation_failures`, exits with status 1 once the counter exceeds 20,
and otherwise recurses, discarding the recursive call's return value
(the `else` branch falls through, so the outer call returns `None`).
`attempt` indexes the prompt stream; the trace records the event order.
The effect itself mutates only the tour's tree, which `tourIterate`
below applies; see `Ev.effected` for its position. -/
def runAux (b : StepBehavior) (attempt : Nat) (s : SData) (scope : Option StateM) :
    RunOut × List Ev :=
  let r := b.sanitize (b.prompts attempt)
  let s1 : SData := { s with response := some r }
  if b.validate r then
    let s2 : SData := { s1 with completed := true }
    match scope with
    | some st =>
        (.done (some r) s2 (some (setKey st s.name r)),
         [.prompted, .validated true, .committed, .effected])
    | none =>
        (.done (some r) s2 none, [.prompted, .validated true, .effected])
  else
    let s2 : SData := { s1 with failures := s1.failures + 1 }
    if s2.failures > 20 then
      (.exited 1, [.prompted, .validated false])
    else
      match runAux b (attempt + 1) s2 scope with
      | (.exited c, tr) => (.exited c, .prompted :: .validated false :: tr)
      | (.done _ s' sc', tr) => (.done none s' sc', .prompted :: .validated false :: tr)
termination_by 21 - s.failures
decreasing_by
  simp only [SData.mk.injEq] at *
  omega

/-- `Step.run()` from the outside: the retry chain starts at the first
prompt of the stream. -/
def runStep (b : StepBehavior) (s : SData) (scope : Option StateM) : RunOut × List Ev :=
  runAux b 0 s scope

/-- Result of `Step.undo()`: whether a `KeyError` was raised, plus the
step and scope as they stand afterwards (the field resets happen before
the deletion, so they survive even when the deletion raises). -/
structure UndoOut where
  keyError : Bool
  s : SData
  scope : Option StateM

/-- `Step.undo()` (source lines 133-141): reset `response` and
`completed`, then `del self.state[self.name]` when the step is bound;
the deletion raises `KeyError` when the name is absent from the scope,
leaving the already-reset fields in place. -/
def undoStep (s : SData) (scope : Option StateM) : UndoOut :=
  let s1 : SData := { s with response := none, completed := false }
  match scope with
  | none => ⟨false, s1, none⟩
  | some st =>
      match delKey st s.name with
      | some st' => ⟨false, s1, some st'⟩
      | none => ⟨true, s1, some st⟩

/-- `Tour.determine_state` (source lines 173-180): a step with a
`state_subset` is pointed at `state[state_subset]`, lazily creating that
sub-`State` when the key is absent; a step without one is pointed at the
tour's top-level state itself. -/
def determineState (d : SData) (st : StateM) : SData × StateM :=
  match d.stateSubset with
  | some subName =>
      let st' := if (getKey st subName).isSome then st else setKey st subName (.vstate [])
      ({ d with stateRef := some (.sub subName) }, st')
  | none => ({ d with stateRef := some .top }, st)

/-- The anytree-backed step tree: a step's attributes plus its children
list, in order. -/
inductive STree where
  | node : SData → List STree → STree

def STree.data : STree → SData
  | .node d _ => d

def STree.children : STree → List STree
  | .node _ cs => cs

/-- One element of the `steps` sequence `Tour.add_steps` accepts:
either a plain step (with whatever children it already carries), or a
nested list whose head is a step and whose tail is again such a
sequence. -/
inductive SpecItem where
  | single : STree → SpecItem
  | group : STree → List SpecItem → SpecItem

/-- `Tour.add_steps` together with `Tour.add_step` (source lines
182-207), acting on a parent's current children list and the tour's
top-level state.  The loop walks `reversed(steps)` and each `add_step`
runs `determine_state`, sets the step's tour reference and inserts the
step at index 0 of the parent's children, so we process the later items
first (the recursion on `rest` happens before the head is bound and
consed on).  For a nested list, the head is added to the parent and the
tail is added under the head, in front of the head's existing
children. -/
def addItems : List SpecItem → List STree → StateM → List STree × StateM
  | [], existing, st => (existing, st)
  | .single t :: rest, existing, st =>
      match addItems rest existing st with
      | (restChildren, st1) =>
          match determineState t.data st1 with
          | (d1, st2) =>
              (STree.node { d1 with hasTour := true } t.children :: restChildren, st2)
  | .group h tail :: rest, existing, st =>
      match addItems rest existing st with
      | (restChildren, st1) =>
          match determineState h.data st1 with
          | (dh, st2) =>
              match addItems tail h.children st2 with
              | (tailChildren, st3) =>
                  (STree.node { dh with hasTour := true } tailChildren :: restChildren, st3)

/-- A freshly constructed `RootStep` (`DEFAULT_NAME = "Root"`, no
`state_subset`, not yet bound to anything). -/
def rootData : SData :=
  { name := "Root", stateSubset := none, response := none, completed := false,
    failures := 0, stateRef := none, hasTour := false, reversible := false }

/-- `Tour.__init__` (source lines 154-171): create the root step, set
its tour reference, run `determine_state` on it against the tour state,
and add the given steps under it. -/
def tourInit (items : List SpecItem) (st0 : StateM) : STree × StateM :=
  match determineState { rootData with hasTour := true } st0 with
  | (rootD, st1) =>
      match addItems items [] st1 with
      | (children, st2) => (.node rootD children, st2)

/-- A step tree with the dynamic attributes erased down to names, used
to compare tree shapes independently of state bindings. -/
inductive NTree where
  | node : String → List NTree → NTree

def eraseTree : STree → NTree
  | .node d cs => .node d.name (cs.attach.map (fun c => eraseTree c.1))
termination_by t => sizeOf t
decreasing_by
  have hm := List.sizeOf_lt_of_mem c.2
  simp
  omega

/-- The shape the spec promises for one added item: a plain step keeps
its shape; a nested list becomes its head with the tail's shapes in
front of the head's pre-existing children. -/
def itemShape : SpecItem → NTree
  | .single t => eraseTree t
  | .group h tail =>
      .node h.data.name ((tail.attach.map (fun i => itemShape i.1)) ++ h.children.map eraseTree)
termination_by it => sizeOf it
decreasing_by
  have hm := List.sizeOf_lt_of_mem i.2
  simp
  omega

/-- Positions in the step tree: the list of child indices from the
root. -/
abbrev Path := List Nat

def nodeAt : STree → Path → Option STree
  | t, [] => some t
  | .node _ cs, i :: p =>
      match cs.get? i with
      | some c => nodeAt c p
      | none => none

/-- Replace the node at a path (leaving the tree unchanged when the
path dangles). -/
def updateAt : STree → Path → (STree → STree) → STree
  | t, [], f => f t
  | .node d cs, i :: p, f =>
      match cs.get? i with
      | some c => .node d (cs.set i (updateAt c p f))
      | none => .node d cs

/-- Modelled from the spec: `next()` comes from
`NodeMixinWithNavigation` in `everyvoice/wizard/utils.py`, which is not
under `src/`.  Per spec §4.2 the successor of a node in the current
tree is its first child when it has children, otherwise the next
sibling of the nearest ancestor that has one, otherwise none (tour
complete).  `nextUpRev` walks the path from its last component
upwards looking for that sibling. -/
def nextUpRev (t : STree) : List Nat → Option Path
  | [] => none
  | i :: qrev =>
      match nodeAt t qrev.reverse with
      | some (.node _ cs) =>
          if i + 1 < cs.length then some (qrev.reverse ++ [i + 1]) else nextUpRev t qrev
      | none => none

/-- Modelled from the spec: pre-order successor, see `nextUpRev`. -/
def nextPath (t : STree) (p : Path) : Option Path :=
  match nodeAt t p with
  | some (.node _ cs) => if cs.isEmpty then nextUpRev t p.reverse else some (p ++ [0])
  | none => none

/-- A step's binding is in place for a given tour state: it has a tour
reference, and its state pointer is the subset scope (which must exist
in the state) when it declares a `state_subset`, and the top-level
state itself otherwise. -/
def dataBound (st : StateM) (d : SData) : Bool :=
  d.hasTour &&
    (match d.stateSubset with
     | some subName =>
         decide (d.stateRef = some (.sub subName)) && (getKey st subName).isSome
     | none => decide (d.stateRef = some .top))

/-- Every step reachable from (and including) this node is bound, in
the sense of `dataBound`. -/
def allNodesBound (st : StateM) : STree → Bool
  | .node d cs => dataBound st d && cs.attach.all (fun c => allNodesBound st c.1)
termination_by t => sizeOf t
decreasing_by
  have hm := List.sizeOf_lt_of_mem c.2
  simp
  omega

/-- Spec items whose embedded steps carry no pre-attached children:
every step in them goes through `add_step` when the item list is added
to a tour. -/
def itemWF : SpecItem → Bool
  | .single t => t.children.isEmpty
  | .group h tail => h.children.isEmpty && tail.attach.all (fun i => itemWF i.1)
termination_by it => sizeOf it
decreasing_by
  have hm := List.sizeOf_lt_of_mem i.2
  simp
  omega

/-- A tour mid-run, as the keyboard-interrupt handler sees it: the
steps in pre-order together with the tour's top-level state.  (The
handler never uses the tree shape itself; its `node.prev()` is, per
spec §4.2, the pre-order predecessor, which is the previous element of
this list.) -/
structure TourW where
  steps : List SData
  state : StateM

/-- One attempt to show the recovery menu: the user either answers with
a choice index (`get_response_from_menu_prompt` with
`return_indices=True`) or interrupts again.  The menu prompt itself is
in `everyvoice/wizard/prompts.py`, which is not under `src/`; it is
modelled as this input stream. -/
inductive MenuAttempt where
  | interrupted : MenuAttempt
  | answered : Nat → MenuAttempt

/-- Outcome of `Tour.keyboard_interrupt_action`: `sys.exit(code)`, an
exception propagating out of it (`KeyError` from `undo`, or calling
`prev.is_reversible()` when `prev` is `None`), or the node the tour
resumes at together with the possibly mutated tour. -/
inductive KIOut where
  | exited : Nat → KIOut
  | raised : TourW → Nat → KIOut
  | ok : TourW → Nat → KIOut

/-- The `for _ in range(2)` retry loop around the recovery menu (source
lines 211-229): `action` starts as `None`; each pass prompts, breaking
on an answer and continuing on a `KeyboardInterrupt`; after two
interrupted passes `action` is still `None`. -/
def menuAction (stream : Nat → MenuAttempt) : Option Nat :=
  match stream 0 with
  | .answered a => some a
  | .interrupted =>
      match stream 1 with
      | .answered a => some a
      | .interrupted => none

/-- How many times the menu prompt is shown by that loop. -/
def menuTries (stream : Nat → MenuAttempt) : Nat :=
  match stream 0 with
  | .answered _ => 1
  | .interrupted => 2

/-- Follow a step's state pointer into the tour's top-level state.  A
`sub` pointer expects the sub-`State` stored under its key. -/
def resolveScope (st : StateM) : ScopeRef → Option StateM
  | .top => some st
  | .sub s =>
      match getKey st s with
      | some (.vstate m) => some m
      | _ => none

/-- Write a mutated scope back through a state pointer. -/
def writeScope (st : StateM) (r : ScopeRef) (sc : StateM) : StateM :=
  match r with
  | .top => sc
  | .sub s => setKey st s (.vstate sc)

/-- `p.undo()` for the step at index `i` of the tour, against its
resolved scope; the Bool reports a raised `KeyError`.  The step's field
resets survive even when the deletion raises. -/
def undoInTour (w : TourW) (i : Nat) (p : SData) : TourW × Bool :=
  let scope := match p.stateRef with
    | some r => resolveScope w.state r
    | none => none
  let u := undoStep p scope
  let st' := match p.stateRef, u.scope with
    | some r, some sc => writeScope w.state r sc
    | _, _ => w.state
  (⟨w.steps.set i u.s, st'⟩, u.keyError)

/-- `Tour.keyboard_interrupt_action` (source lines 209-248).  Dispatch
on the menu choice: 0 = "Go back one step" (undo and return the
previous step if it is reversible, else print a diagnostic and return
the current node), 1 = "Continue", 2 = "View the question tree"
(`visualize` is read-only), 3 = "Save progress" (both return the
current node), and anything else — `None` after two interrupted menu
attempts, or 4 = "Exit" — runs `sys.exit(1)`.  `node.prev()` is
modelled from the spec as the pre-order predecessor `cur - 1`; at
`cur = 0` it is `None` and `prev.is_reversible()` raises. -/
def keyboardInterruptAction (stream : Nat → MenuAttempt) (w : TourW) (cur : Nat) : KIOut :=
  match menuAction stream with
  | some 0 =>
      match cur with
      | 0 => .raised w cur
      | n + 1 =>
          match w.steps.get? n with
          | none => .raised w cur
          | some p =>
              if p.reversible then
                match undoInTour w n p with
                | (w', true) => .raised w' cur
                | (w', false) => .ok w' n
              else .ok w cur
  | some 1 => .ok w cur
  | some 2 => .ok w cur
  | some 3 => .ok w cur
  | _ => .exited 1

/-- Outcome of one iteration of the `Tour.run` loop body (source lines
250-264): the process exits (the step's circuit breaker), or the tour
moves on with the mutated tree and state and the successor
`node.next()` chose. -/
inductive IterOut where
  | exited : Nat → IterOut
  | stepped : STree → StateM → Option Path → IterOut

/-- One iteration of `Tour.run` at node `cur`: run the node against its
resolved scope, write the mutated step and scope back, apply the
step's `effect()` — which appends `adds` via `Tour.add_step`, i.e. in
front of the node's children — and only then ask `node.next()` for the
successor, on the grown tree.  The trace extends the step's own run
trace with the `askNext` event. -/
def tourIterate (b : StepBehavior) (adds : List SpecItem) (tree : STree) (st : StateM)
    (cur : Path) : IterOut × List Ev :=
  match nodeAt tree cur with
  | none => (.stepped tree st none, [])
  | some nd =>
      let scope := match nd.data.stateRef with
        | some r => resolveScope st r
        | none => none
      match runAux b 0 nd.data scope with
      | (.exited c, tr) => (.exited c, tr)
      | (.done _ s' scope', tr) =>
          let st1 := match nd.data.stateRef, scope' with
            | some r, some sc => writeScope st r sc
            | _, _ => st
          match addItems adds nd.children st1 with
          | (newChildren, st2) =>
              let tree2 := updateAt tree cur (fun _ => .node s' newChildren)
              (.stepped tree2 st2 (nextPath tree2 cur), tr ++ [.askNext])

/-- One state extends another when every key present in the first is
still present in the second (the engine only ever adds keys while
building a tour). -/
def stateLe (st st' : StateM) : Prop :=
  ∀ k, (getKey st k).isSome = true → (getKey st' k).isSome = true

/-! ### Association-list (dict) lemmas -/

theorem getKey_setKey_self (st : StateM) (k : String) (v : Val) :
    getKey (setKey st k v) k = some v := by
  induction st with
  | nil => simp [setKey, getKey]
  | cons kv rest ih =>
      obtain ⟨k0, v0⟩ := kv
      by_cases h : k0 = k
      · simp [setKey, h, getKey]
      · simp [setKey, h, getKey, ih]

theorem delKey_eq_none_iff (st : StateM) (k : String) :
    delKey st k = none ↔ getKey st k = none := by
  induction st with
  | nil => simp [delKey, getKey]
  | cons kv rest ih =>
      obtain ⟨k0, v0⟩ := kv
      by_cases h : k0 = k
      · simp [delKey, h, getKey]
      · simp only [delKey, h, getKey, if_neg h]
        cases hd : delKey rest k with
        | none => simpa [hd] using ih
        | some rest' => simp [hd, ← ih]

theorem any_key_false_getKey (st : StateM) (k : String)
    (h : st.any (fun kv => kv.1 == k) = false) : getKey st k = none := by
  induction st with
  | nil => simp [getKey]
  | cons kv rest ih =>
      obtain ⟨k0, v0⟩ := kv
      simp only [List.any_cons, Bool.or_eq_false_iff, beq_eq_false_iff_ne] at h
      simp [getKey, h.1, ih h.2]

theorem any_key_setKey (st : StateM) (k k' : String) (v : Val) (hne : k ≠ k') :
    (setKey st k v).any (fun kv => kv.1 == k') = st.any (fun kv => kv.1 == k') := by
  induction st with
  | nil => simp [setKey, hne]
  | cons kv rest ih =>
      obtain ⟨k0, v0⟩ := kv
      by_cases h : k0 = k
      · simp [setKey, h, hne]
      · simp [setKey, h, ih]

theorem dupFree_setKey (st : StateM) (k : String) (v : Val) (h : dupFree st = true) :
    dupFree (setKey st k v) = true := by
  induction st with
  | nil => simp [setKey, dupFree]
  | cons kv rest ih =>
      obtain ⟨k0, v0⟩ := kv
      simp only [dupFree, Bool.and_eq_true, Bool.not_eq_true'] at h
      by_cases hk : k0 = k
      · subst hk
        simp [setKey, dupFree, h.1, h.2]
      · simp only [setKey, if_neg hk, dupFree, Bool.and_eq_true, Bool.not_eq_true']
        exact ⟨by rw [any_key_setKey _ _ _ _ (fun he => hk he.symm)]; exact h.1, ih h.2⟩

theorem getKey_delKey_self (st : StateM) (k : String) (st' : StateM)
    (hdup : dupFree st = true) (h : delKey st k = some st') :
    getKey st' k = none := by
  induction st generalizing st' with
  | nil => simp [delKey] at h
  | cons kv rest ih =>
      obtain ⟨k0, v0⟩ := kv
      simp only [dupFree, Bool.and_eq_true, Bool.not_eq_true'] at hdup
      by_cases hk : k0 = k
      · subst hk
        simp only [delKey, if_pos rfl] at h
        cases h
        exact any_key_false_getKey _ _ hdup.1
      · simp only [delKey, if_neg hk] at h
        cases hd : delKey rest k with
        | none => simp [hd] at h
        | some rest' =>
            simp only [hd] at h
            cases h
            simp [getKey, hk, ih _ hdup.2 hd]

/-! ### `Step.run` characterization -/

/-- The trace events a successful run ends with: the commit happens only
when the step is bound to a scope. -/
def doneTail : Option StateM → List Ev
  | some _ => [Ev.committed, Ev.effected]
  | none => [Ev.effected]

theorem runAux_char (b : StepBehavior) (m : Nat) :
    ∀ (attempt : Nat) (s : SData) (scope : Option StateM), 21 - s.failures = m →
      ∀ out tr, runAux b attempt s scope = (out, tr) →
        (∀ v s' sc', out = RunOut.done v s' sc' →
            s'.name = s.name ∧ s'.stateSubset = s.stateSubset ∧ s'.stateRef = s.stateRef ∧
              s'.hasTour = s.hasTour ∧ s'.reversible = s.reversible ∧ s'.completed = true ∧
              ∃ r, s'.response = some r ∧ b.validate r = true ∧
                sc' = Option.map (fun st => setKey st s.name r) scope) ∧
          (∀ v s' sc', out = RunOut.done v s' sc' → ∃ t, tr = t ++ doneTail scope) ∧
          (Ev.effected ∈ tr ↔ ∃ v s' sc', out = RunOut.done v s' sc') := by
  induction m using Nat.strong_induction_on with
  | _ m ih =>
      intro attempt s scope hm out tr hout
      rw [runAux] at hout
      by_cases hval : b.validate (b.sanitize (b.prompts attempt)) = true
      · cases scope with
        | some st =>
            simp only [hval, if_true] at hout
            injection hout with h1 h2
            subst h1 h2
            refine ⟨?_, ?_, ?_⟩
            · intro v s' sc' hd
              injection hd with hv hs hsc
              subst hv hs hsc
              exact ⟨rfl, rfl, rfl, rfl, rfl, rfl, _, rfl, hval, rfl⟩
            · intro v s' sc' _
              exact ⟨[Ev.prompted, Ev.validated true], rfl⟩
            · simp [doneTail]
        | none =>
            simp only [hval, if_true] at hout
            injection hout with h1 h2
            subst h1 h2
            refine ⟨?_, ?_, ?_⟩
            · intro v s' sc' hd
              injection hd with hv hs hsc
              subst hv hs hsc
              exact ⟨rfl, rfl, rfl, rfl, rfl, rfl, _, rfl, hval, rfl⟩
            · intro v s' sc' _
              exact ⟨[Ev.prompted, Ev.validated true], rfl⟩
            · simp [doneTail]
      · by_cases hgt : s.failures + 1 > 20
        · simp only [hval, if_false, hgt, if_true, Bool.false_eq_true] at hout
          injection hout with h1 h2
          subst h1 h2
          refine ⟨?_, ?_, ?_⟩
          · intro v s' sc' hd
            exact absurd hd (by simp)
          · intro v s' sc' hd
            exact absurd hd (by simp)
          · constructor
            · intro hmem
              simp at hmem
            · rintro ⟨v, s', sc', hd⟩
              exact absurd hd (by simp)
        · simp only [hval, Bool.false_eq_true, if_false, hgt, if_true] at hout
          rcases hrec : runAux b (attempt + 1)
              { name := s.name, stateSubset := s.stateSubset,
                response := some (b.sanitize (b.prompts attempt)), completed := s.completed,
                failures := s.failures + 1, stateRef := s.stateRef, hasTour := s.hasTour,
                reversible := s.reversible } scope with ⟨out2, tr2⟩
          rw [hrec] at hout
          have hrec1 := ih (21 - (s.failures + 1)) (by omega) (attempt + 1) _ scope rfl out2 tr2 hrec
          cases out2 with
          | exited c =>
              simp only [] at hout
              injection hout with h1 h2
              subst h1 h2
              refine ⟨?_, ?_, ?_⟩
              · intro v s' sc' hd
                exact absurd hd (by simp)
              · intro v s' sc' hd
                exact absurd hd (by simp)
              · constructor
                · intro hmem
                  have : Ev.effected ∈ tr2 := by simpa using hmem
                  obtain ⟨v, s', sc', hd⟩ := hrec1.2.2.mp this
                  exact absurd hd (by simp)
                · rintro ⟨v, s', sc', hd⟩
                  exact absurd hd (by simp)
          | done v0 s0' sc0' =>
              simp only [] at hout
              injection hout with h1 h2
              subst h1 h2
              refine ⟨?_, ?_, ?_⟩
              · intro v s' sc' hd
                injection hd with hv hs hsc
                subst hv hs hsc
                exact hrec1.1 v0 s0' sc0' rfl
              · intro v s' sc' _
                obtain ⟨t, ht⟩ := hrec1.2.1 v0 s0' sc0' rfl
                exact ⟨Ev.prompted :: Ev.validated false :: t, by simp [ht]⟩
              · constructor
                · intro _
                  exact ⟨none, s0', sc0', rfl⟩
                · intro _
                  have : Ev.effected ∈ tr2 := hrec1.2.2.mpr ⟨v0, s0', sc0', rfl⟩
                  simp [this]

/-- C1: for a step bound to a state scope, a successful `Step.run()`
leaves the scope mapping the step's name to the step's response and the
step `completed`; a subsequent `undo()` removes that key from the
scope, resets `response` to `None` and `completed` to false. -/
theorem run_commit_undo_roundtrip (b : StepBehavior) (s0 : SData) (st0 : StateM)
    (v : Option Val) (s1 : SData) (st1 : StateM) (tr : List Ev)
    (hdup : dupFree st0 = true)
    (hrun : runStep b s0 (some st0) = (RunOut.done v s1 (some st1), tr)) :
    getKey st1 s0.name = s1.response ∧ s1.completed = true ∧
      (undoStep s1 (some st1)).keyError = false ∧
      (undoStep s1 (some st1)).s.response = none ∧
      (undoStep s1 (some st1)).s.completed = false ∧
      ∃ st2, (undoStep s1 (some st1)).scope = some st2 ∧ getKey st2 s0.name = none := by
  rw [runStep] at hrun
  have hc := runAux_char b (21 - s0.failures) 0 s0 (some st0) rfl _ _ hrun
  obtain ⟨hname, _, _, _, _, hcomp, r, hresp, _, hsc⟩ := hc.1 v s1 (some st1) rfl
  have hst1 : st1 = setKey st0 s0.name r := by simpa using hsc
  have hget : getKey st1 s0.name = some r := by
    rw [hst1]; exact getKey_setKey_self _ _ _
  have hdup1 : dupFree st1 = true := by
    rw [hst1]; exact dupFree_setKey _ _ _ hdup
  obtain ⟨st2, hdel⟩ : ∃ st2, delKey st1 s1.name = some st2 := by
    rw [hname]
    rcases hd : delKey st1 s0.name with _ | st2
    · rw [delKey_eq_none_iff] at hd
      rw [hd] at hget
      cases hget
    · exact ⟨st2, rfl⟩
  refine ⟨hget.trans hresp.symm, hcomp, ?_, ?_, ?_, st2, ?_, ?_⟩
  · simp [undoStep, hdel]
  · simp [undoStep, hdel]
  · simp [undoStep, hdel]
  · simp [undoStep, hdel]
  · have := getKey_delKey_self st1 s1.name st2 hdup1 hdel
    rwa [hname] at this

/-- Witness for C1 at a concrete single-success run: step "A", answer
"ok", empty initial scope. -/
theorem run_commit_undo_roundtrip_witness :
    dupFree [] = true ∧
      (getKey [("A", Val.vstr "ok")] "A" =
          (⟨"A", none, some (Val.vstr "ok"), true, 0, none, false, false⟩ : SData).response ∧
        (⟨"A", none, some (Val.vstr "ok"), true, 0, none, false, false⟩ : SData).completed = true ∧
        (undoStep ⟨"A", none, some (Val.vstr "ok"), true, 0, none, false, false⟩
            (some [("A", Val.vstr "ok")])).keyError = false ∧
        (undoStep ⟨"A", none, some (Val.vstr "ok"), true, 0, none, false, false⟩
            (some [("A", Val.vstr "ok")])).s.response = none ∧
        (undoStep ⟨"A", none, some (Val.vstr "ok"), true, 0, none, false, false⟩
            (some [("A", Val.vstr "ok")])).s.completed = false ∧
        ∃ st2, (undoStep ⟨"A", none, some (Val.vstr "ok"), true, 0, none, false, false⟩
            (some [("A", Val.vstr "ok")])).scope = some st2 ∧ getKey st2 "A" = none) := by
  refine ⟨rfl, run_commit_undo_roundtrip
    ⟨fun _ => Val.vstr "ok", fun r => r, fun _ => true⟩
    ⟨"A", none, none, false, 0, none, false, false⟩ []
    (some (Val.vstr "ok")) ⟨"A", none, some (Val.vstr "ok"), true, 0, none, false, false⟩
    [("A", Val.vstr "ok")] [Ev.prompted, Ev.validated true, Ev.committed, Ev.effected]
    rfl ?_⟩
  simp [runStep, runAux, setKey]

/-- C2 evidence: a step whose `validate` always fails is re-prompted on
the 20th failure and the process only exits (status 1) on the 21st
failed attempt — the trace of the run records 21 prompts and 21 failed
validations, not 20, although the code's own diagnostic claims it gives
up "after 20 validation failures". -/
theorem circuit_breaker_trips_on_21st_failure :
    (runStep ⟨fun _ => Val.vstr "x", fun r => r, fun _ => false⟩
        ⟨"S", none, none, false, 0, none, false, false⟩ (some [])).1 = RunOut.exited 1 ∧
      (runStep ⟨fun _ => Val.vstr "x", fun r => r, fun _ => false⟩
          ⟨"S", none, none, false, 0, none, false, false⟩ (some [])).2.countP
          (fun e => e == Ev.prompted) = 21 ∧
      (runStep ⟨fun _ => Val.vstr "x", fun r => r, fun _ => false⟩
          ⟨"S", none, none, false, 0, none, false, false⟩ (some [])).2.countP
          (fun e => e == Ev.validated false) = 21 := by
  refine ⟨?_, ?_, ?_⟩ <;> simp [runStep, runAux]

/-- C9: when `Step.run()` ends in a completed step, the outer call
returns the response only if the very first `validate` succeeded; if
the first attempt failed and a retry succeeded, the recursion's value is
discarded and the outer call returns `None`, even though the step is
completed and its response is committed to the scope. -/
theorem run_retry_returns_none (b : StepBehavior) (s0 : SData) (st0 : StateM)
    (v : Option Val) (s1 : SData) (sc1 : Option StateM) (tr : List Ev)
    (hrun : runStep b s0 (some st0) = (RunOut.done v s1 sc1, tr)) :
    (b.validate (b.sanitize (b.prompts 0)) = false →
        v = none ∧ s1.completed = true ∧
          ∃ st1, sc1 = some st1 ∧ getKey st1 s0.name = s1.response) ∧
    (∀ r', v = some r' → b.validate (b.sanitize (b.prompts 0)) = true) := by
  rw [runStep] at hrun
  have hchar := runAux_char b (21 - s0.failures) 0 s0 (some st0) rfl _ _ hrun
  obtain ⟨_, _, _, _, _, hcomp, r, hresp, _, hsc⟩ := hchar.1 v s1 sc1 rfl
  have hcommit : ∃ st1, sc1 = some st1 ∧ getKey st1 s0.name = s1.response := by
    refine ⟨setKey st0 s0.name r, by simpa using hsc, ?_⟩
    rw [getKey_setKey_self, hresp]
  have hnone : b.validate (b.sanitize (b.prompts 0)) = false → v = none := by
    intro hfail
    rw [runAux] at hrun
    simp only [hfail, Bool.false_eq_true, if_false] at hrun
    by_cases hgt : s0.failures + 1 > 20
    · simp only [hgt, if_true] at hrun
      injection hrun with h1 h2
      cases h1
    · simp only [hgt, if_false] at hrun
      rcases hrec : runAux b (0 + 1)
          { name := s0.name, stateSubset := s0.stateSubset,
            response := some (b.sanitize (b.prompts 0)), completed := s0.completed,
            failures := s0.failures + 1, stateRef := s0.stateRef, hasTour := s0.hasTour,
            reversible := s0.reversible } (some st0) with ⟨out2, tr2⟩
      rw [hrec] at hrun
      cases out2 with
      | exited c =>
          simp only [] at hrun
          injection hrun with h1 h2
          cases h1
      | done v0 s0' sc0' =>
          simp only [] at hrun
          injection hrun with h1 h2
          injection h1 with hv _ _
          exact hv.symm
  refine ⟨fun hfail => ⟨hnone hfail, hcomp, hcommit⟩, fun r' hv => ?_⟩
  by_cases hfirst : b.validate (b.sanitize (b.prompts 0)) = true
  · exact hfirst
  · rw [hnone (by simpa using hfirst)] at hv
    cases hv

/-- Witness for C9: first answer "bad" is rejected, the retry "ok" is
accepted; the outer run returns `None` while the step completes with
"ok" committed. -/
theorem run_retry_returns_none_witness :
    ((fun v => match v with | Val.vstr str => str == "ok" | _ => false)
        ((fun r => r) ((fun n => if n = 0 then Val.vstr "bad" else Val.vstr "ok") 0)) = false →
      (none : Option Val) = none ∧
        (⟨"A", none, some (Val.vstr "ok"), true, 1, none, false, false⟩ : SData).completed = true ∧
        ∃ st1, (some [("A", Val.vstr "ok")] : Option StateM) = some st1 ∧
          getKey st1 "A" =
            (⟨"A", none, some (Val.vstr "ok"), true, 1, none, false, false⟩ : SData).response) ∧
    (∀ r', (none : Option Val) = some r' →
      (fun v => match v with | Val.vstr str => str == "ok" | _ => false)
        ((fun r => r) ((fun n => if n = 0 then Val.vstr "bad" else Val.vstr "ok") 0)) = true) := by
  refine run_retry_returns_none
    ⟨fun n => if n = 0 then Val.vstr "bad" else Val.vstr "ok", fun r => r,
      fun v => match v with | Val.vstr str => str == "ok" | _ => false⟩
    ⟨"A", none, none, false, 0, none, false, false⟩ []
    none ⟨"A", none, some (Val.vstr "ok"), true, 1, none, false, false⟩
    (some [("A", Val.vstr "ok")])
    [Ev.prompted, Ev.validated false, Ev.prompted, Ev.validated true, Ev.committed, Ev.effected]
    ?_
  simp [runStep, runAux, setKey]

/-- C10: `undo()` on a step whose scope lacks the step's name raises
`KeyError`, and the step is mutated anyway: `response` and `completed`
were reset before the failing deletion, while the scope is left
unchanged. -/
theorem undo_keyerror_leaves_reset (s : SData) (st : StateM)
    (h : getKey st s.name = none) :
    (undoStep s (some st)).keyError = true ∧
      (undoStep s (some st)).s.response = none ∧
      (undoStep s (some st)).s.completed = false ∧
      (undoStep s (some st)).scope = some st := by
  have hdel : delKey st s.name = none := (delKey_eq_none_iff _ _).mpr h
  simp [undoStep, hdel]

/-- Witness for C10: undoing step "B" against a scope that only holds
key "A" raises `KeyError` with the step fields already reset. -/
theorem undo_keyerror_leaves_reset_witness :
    (undoStep ⟨"B", none, some (Val.vstr "old"), true, 0, none, false, false⟩
        (some [("A", Val.vnat 1)])).keyError = true ∧
      (undoStep ⟨"B", none, some (Val.vstr "old"), true, 0, none, false, false⟩
          (some [("A", Val.vnat 1)])).s.response = none ∧
      (undoStep ⟨"B", none, some (Val.vstr "old"), true, 0, none, false, false⟩
          (some [("A", Val.vnat 1)])).s.completed = false ∧
      (undoStep ⟨"B", none, some (Val.vstr "old"), true, 0, none, false, false⟩
          (some [("A", Val.vnat 1)])).scope = some [("A", Val.vnat 1)] :=
  undo_keyerror_leaves_reset ⟨"B", none, some (Val.vstr "old"), true, 0, none, false, false⟩
    [("A", Val.vnat 1)] rfl

/-! ### Tree construction lemmas -/

theorem all_attach {α : Type} (l : List α) (f : α → Bool) :
    l.attach.all (fun x => f x.1) = l.all f := by
  apply Bool.eq_iff_iff.mpr
  simp only [List.all_eq_true]
  constructor
  · intro hall a ha
    exact hall ⟨a, ha⟩ (List.mem_attach _ _)
  · intro hall x _
    exact hall x.1 x.2

theorem eraseTree_node (d : SData) (cs : List STree) :
    eraseTree (.node d cs) = .node d.name (cs.map eraseTree) := by
  rw [eraseTree]
  congr 1
  simp [List.attach_map_coe]

theorem eraseTree_def (t : STree) :
    eraseTree t = .node t.data.name (t.children.map eraseTree) := by
  cases t with
  | node d cs => rw [eraseTree_node]; simp [STree.data, STree.children]

theorem itemShape_group (h : STree) (tail : List SpecItem) :
    itemShape (.group h tail) =
      .node h.data.name (tail.map itemShape ++ h.children.map eraseTree) := by
  rw [itemShape]
  congr 1
  simp [List.attach_map_coe]

theorem itemWF_group (h : STree) (tail : List SpecItem) :
    itemWF (.group h tail) = (h.children.isEmpty && tail.all itemWF) := by
  rw [itemWF]
  congr 1
  exact all_attach tail itemWF

theorem determineState_name (d : SData) (st : StateM) :
    ((determineState d st).1).name = d.name := by
  cases hd : d.stateSubset <;> simp [determineState, hd]

theorem addItems_shape (items : List SpecItem) (existing : List STree) (st : StateM) :
    ((addItems items existing st).1).map eraseTree =
      items.map itemShape ++ existing.map eraseTree := by
  induction items, existing, st using addItems.induct with
  | case1 existing st => simp [addItems]
  | case2 t rest existing st restChildren st1 hrec d1 st2 hdet ih =>
      rw [hrec] at ih
      have hname : d1.name = t.data.name := by
        have := determineState_name t.data st1
        rw [hdet] at this
        exact this
      simp only [addItems, hrec, hdet, List.map_cons, eraseTree_node]
      simp [ih, itemShape, eraseTree_node, hname, eraseTree_def t]
  | case3 h tail rest existing st restChildren st1 hrec1 dh st2 hdet tailChildren st3 hrec2
      ih1 ih2 =>
      rw [hrec1] at ih1
      rw [hrec2] at ih2
      have hname : dh.name = h.data.name := by
        have := determineState_name h.data st1
        rw [hdet] at this
        exact this
      simp only [addItems, hrec1, hdet, hrec2, List.map_cons, eraseTree_node]
      simp [ih1, ih2, itemShape_group, hname]

/-- C5: steps added by `Tour.add_steps` appear at the front of the
parent's children in the given order, before all previously existing
children; a nested list contributes its head as the direct child with
the tail's items as that head's descendants, in order, in front of the
head's own previous children (shapes compared after erasing the
state-binding fields). -/
theorem add_steps_front_in_order (items : List SpecItem) (existing : List STree) (st : StateM) :
    ((addItems items existing st).1).map eraseTree =
      items.map itemShape ++ existing.map eraseTree :=
  addItems_shape items existing st

/-- C8 counterexample: `add_step` performs no name-collision check —
constructing a tour from two steps both named "A" silently accepts
both; the root ends with two children of the same name and the second
`add_step` call was not rejected. -/
theorem add_step_accepts_duplicate_name_cx :
    (((tourInit
        [.single (STree.node ⟨"A", none, none, false, 0, none, false, false⟩ []),
         .single (STree.node ⟨"A", none, none, false, 0, none, false, false⟩ [])]
        []).1).children).map (fun c => c.data.name) = ["A", "A"] := by
  simp [tourInit, addItems, determineState, rootData, STree.children, STree.data]

/-- C8 (amended): adding a step whose name already occurs among the
parent's children is not detected or rejected: `add_step` inserts it
all the same, in front of the existing child of the same name. -/
theorem add_step_accepts_duplicate_name (t : STree) (existing : List STree) (st : StateM)
    (_hdup : ∃ c ∈ existing, c.data.name = t.data.name) :
    ((addItems [.single t] existing st).1).map eraseTree =
      eraseTree t :: existing.map eraseTree := by
  have hs := addItems_shape [.single t] existing st
  simpa [itemShape] using hs

/-- Witness for the amended C8: a duplicate-named step is still
inserted. -/
theorem add_step_accepts_duplicate_name_witness :
    (∃ c ∈ [STree.node ⟨"A", none, none, false, 0, some ScopeRef.top, true, false⟩ []],
        c.data.name =
          (STree.node ⟨"A", none, none, false, 0, none, false, false⟩ ([] : List STree)).data.name) ∧
      ((addItems [.single (STree.node ⟨"A", none, none, false, 0, none, false, false⟩ [])]
          [STree.node ⟨"A", none, none, false, 0, some ScopeRef.top, true, false⟩ []]
          []).1).map eraseTree =
        eraseTree (STree.node ⟨"A", none, none, false, 0, none, false, false⟩ []) ::
          [STree.node ⟨"A", none, none, false, 0, some ScopeRef.top, true, false⟩ []].map
            eraseTree := by
  refine ⟨⟨_, List.mem_singleton.mpr rfl, rfl⟩, add_step_accepts_duplicate_name _ _ _ ?_⟩
  exact ⟨_, List.mem_singleton.mpr rfl, rfl⟩

/-! ### Binding invariant (tour construction) -/

theorem getKey_setKey_ne (st : StateM) (k k' : String) (v : Val) (hne : k' ≠ k) :
    getKey (setKey st k' v) k = getKey st k := by
  induction st with
  | nil => simp [setKey, getKey, hne]
  | cons kv rest ih =>
      obtain ⟨k0, v0⟩ := kv
      by_cases h : k0 = k'
      · subst h
        simp [setKey, getKey, hne]
      · simp only [setKey, if_neg h]
        by_cases h2 : k0 = k <;> simp [getKey, h2, ih]

theorem stateLe_refl (st : StateM) : stateLe st st := fun _ h => h

theorem stateLe_trans {st1 st2 st3 : StateM} (h1 : stateLe st1 st2) (h2 : stateLe st2 st3) :
    stateLe st1 st3 := fun k h => h2 k (h1 k h)

theorem stateLe_setKey (st : StateM) (k : String) (v : Val) : stateLe st (setKey st k v) := by
  intro k' h
  by_cases hk : k = k'
  · subst hk
    simp [getKey_setKey_self]
  · rwa [getKey_setKey_ne st k' k v hk]

theorem determineState_stateLe (d : SData) (st : StateM) :
    stateLe st (determineState d st).2 := by
  cases hd : d.stateSubset with
  | none => simp only [determineState, hd]; exact stateLe_refl st
  | some subName =>
      simp only [determineState, hd]
      by_cases hk : (getKey st subName).isSome = true
      · simp only [hk, if_true]; exact stateLe_refl st
      · simp only [hk, if_false, Bool.false_eq_true]
        exact stateLe_setKey st subName (Val.vstate [])

theorem determineState_bound (d : SData) (st : StateM) :
    dataBound (determineState d st).2 { (determineState d st).1 with hasTour := true } = true := by
  cases hd : d.stateSubset with
  | none => simp [determineState, hd, dataBound]
  | some subName =>
      by_cases hk : (getKey st subName).isSome = true
      · simp [determineState, hd, dataBound, hk]
      · simp [determineState, hd, dataBound, hk, getKey_setKey_self]

theorem dataBound_mono (st st' : StateM) (hle : stateLe st st') (d : SData)
    (hb : dataBound st d = true) : dataBound st' d = true := by
  cases hd : d.stateSubset with
  | none => simpa [dataBound, hd] using hb
  | some subName =>
      simp only [dataBound, hd, Bool.and_eq_true] at hb ⊢
      exact ⟨hb.1, ⟨hb.2.1, hle subName hb.2.2⟩⟩

theorem allNodesBound_node (st : StateM) (d : SData) (cs : List STree) :
    allNodesBound st (.node d cs) = (dataBound st d && cs.all (allNodesBound st)) := by
  rw [allNodesBound]
  congr 1
  exact all_attach cs (allNodesBound st)

theorem allNodesBound_mono (st st' : StateM) (hle : stateLe st st') :
    ∀ (t : STree), allNodesBound st t = true → allNodesBound st' t = true
  | .node d cs => by
      rw [allNodesBound_node, allNodesBound_node]
      simp only [Bool.and_eq_true, List.all_eq_true]
      rintro ⟨hb, hall⟩
      refine ⟨dataBound_mono st st' hle d hb, fun c hc => ?_⟩
      exact allNodesBound_mono st st' hle c (hall c hc)
termination_by t => sizeOf t
decreasing_by
  have := List.sizeOf_lt_of_mem hc
  simp
  omega

theorem addItems_bound (items : List SpecItem) (existing : List STree) (st : StateM) :
    items.all itemWF = true → existing.all (allNodesBound st) = true →
      stateLe st (addItems items existing st).2 ∧
        ((addItems items existing st).1).all (allNodesBound (addItems items existing st).2) =
          true := by
  induction items, existing, st using addItems.induct with
  | case1 existing st =>
      intro _ hex
      simp only [addItems]
      exact ⟨stateLe_refl st, hex⟩
  | case2 t rest existing st restChildren st1 hrec d1 st2 hdet ih =>
      intro hwf hex
      simp only [List.all_cons, Bool.and_eq_true] at hwf
      obtain ⟨hle1, hbnd1⟩ := ih hwf.2 hex
      rw [hrec] at hle1 hbnd1
      simp only at hle1 hbnd1
      have hle2 : stateLe st1 st2 := by
        have := determineState_stateLe t.data st1
        rwa [hdet] at this
      have hchild : t.children = [] := by
        rw [itemWF] at hwf
        exact List.isEmpty_iff.mp hwf.1
      have hb : dataBound st2 { d1 with hasTour := true } = true := by
        have := determineState_bound t.data st1
        rwa [hdet] at this
      simp only [addItems, hrec, hdet, List.all_cons, Bool.and_eq_true]
      refine ⟨stateLe_trans hle1 hle2, ?_, ?_⟩
      · rw [hchild, allNodesBound_node]
        simp [hb]
      · exact List.all_eq_true.mpr fun c hc =>
          allNodesBound_mono st1 st2 hle2 c (List.all_eq_true.mp hbnd1 c hc)
  | case3 h tail rest existing st restChildren st1 hrec1 dh st2 hdet tailChildren st3 hrec2
      ih1 ih2 =>
      intro hwf hex
      simp only [List.all_cons, Bool.and_eq_true] at hwf
      rw [itemWF_group, Bool.and_eq_true] at hwf
      obtain ⟨⟨hempty, htailwf⟩, hrestwf⟩ := hwf
      obtain ⟨hle1, hbnd1⟩ := ih1 hrestwf hex
      rw [hrec1] at hle1 hbnd1
      simp only at hle1 hbnd1
      have hle2 : stateLe st1 st2 := by
        have := determineState_stateLe h.data st1
        rwa [hdet] at this
      have hchild : h.children = [] := List.isEmpty_iff.mp hempty
      obtain ⟨hle3, hbnd3⟩ := ih2 htailwf (by rw [hchild]; rfl)
      rw [hrec2] at hle3 hbnd3
      simp only at hle3 hbnd3
      have hb : dataBound st2 { dh with hasTour := true } = true := by
        have := determineState_bound h.data st1
        rwa [hdet] at this
      simp only [addItems, hrec1, hdet, hrec2, List.all_cons, Bool.and_eq_true]
      refine ⟨stateLe_trans hle1 (stateLe_trans hle2 hle3), ?_, ?_⟩
      · rw [allNodesBound_node]
        simp only [Bool.and_eq_true]
        exact ⟨dataBound_mono st2 st3 hle3 _ hb, hbnd3⟩
      · exact List.all_eq_true.mpr fun c hc =>
          allNodesBound_mono st1 st3 (stateLe_trans hle2 hle3) c
            (List.all_eq_true.mp hbnd1 c hc)

theorem tourInit_bound (items : List SpecItem) (st0 : StateM)
    (hwf : items.all itemWF = true) :
    allNodesBound (tourInit items st0).2 (tourInit items st0).1 = true := by
  rcases hdet : determineState { rootData with hasTour := true } st0 with ⟨rootD, st1⟩
  rcases hadd : addItems items [] st1 with ⟨children, st2⟩
  have hroot : dataBound st2 rootD = true := by
    have : rootD = { ({ rootData with hasTour := true } : SData) with stateRef := some .top } := by
      have := hdet
      simp only [determineState, rootData] at this
      exact (Prod.mk.injEq _ _ _ _ ▸ this).1.symm
    rw [this]
    simp [dataBound, rootData]
  have hb := addItems_bound items [] st1 hwf rfl
  rw [hadd] at hb
  simp only at hb
  simp only [tourInit, hdet, hadd, allNodesBound_node, Bool.and_eq_true]
  exact ⟨hroot, hb.2⟩

/-- C6 (amended): after `Tour` construction every step that was handed
to `add_step`/`add_steps` — i.e. every reachable step when the given
items carry no pre-attached children — has a tour reference and a state
binding: the lazily created `state[state_subset]` scope when it
declares a subset (the key exists in the final state), and the
top-level state itself otherwise; a subset scope absent at bind time is
created as a fresh empty sub-`State`.  (Steps smuggled in as
pre-attached children of a passed step are reachable but stay unbound —
see the counterexample.) -/
theorem tour_construction_binds_added_steps (items : List SpecItem) (st0 : StateM)
    (hwf : items.all itemWF = true) :
    allNodesBound (tourInit items st0).2 (tourInit items st0).1 = true ∧
      (∀ (d : SData) (st : StateM) (subName : String), d.stateSubset = some subName →
        getKey st subName = none →
        getKey (determineState d st).2 subName = some (Val.vstate [])) := by
  refine ⟨tourInit_bound items st0 hwf, fun d st subName hsub hnone => ?_⟩
  simp [determineState, hsub, hnone, getKey_setKey_self]

/-- Witness for the amended C6: a two-step tour, one step with a
`state_subset` and one without, everything bound after construction. -/
theorem tour_construction_binds_added_steps_witness :
    ([SpecItem.single (STree.node ⟨"A", some "ds", none, false, 0, none, false, false⟩ []),
      SpecItem.single (STree.node ⟨"B", none, none, false, 0, none, false, false⟩ [])].all
        itemWF = true) ∧
      (allNodesBound
          (tourInit
            [SpecItem.single (STree.node ⟨"A", some "ds", none, false, 0, none, false, false⟩ []),
             SpecItem.single (STree.node ⟨"B", none, none, false, 0, none, false, false⟩ [])]
            []).2
          (tourInit
            [SpecItem.single (STree.node ⟨"A", some "ds", none, false, 0, none, false, false⟩ []),
             SpecItem.single (STree.node ⟨"B", none, none, false, 0, none, false, false⟩ [])]
            []).1 = true ∧
        (∀ (d : SData) (st : StateM) (subName : String), d.stateSubset = some subName →
          getKey st subName = none →
          getKey (determineState d st).2 subName = some (Val.vstate []))) := by
  have hwf : ([SpecItem.single (STree.node ⟨"A", some "ds", none, false, 0, none, false, false⟩ []),
      SpecItem.single (STree.node ⟨"B", none, none, false, 0, none, false, false⟩ [])].all
        itemWF = true) := by
    simp [itemWF, STree.children]
  exact ⟨hwf, tour_construction_binds_added_steps _ [] hwf⟩

/-- C6 counterexample: a step passed to the `Tour` constructor carrying
a pre-attached child.  The child is reachable from the root (at path
[0, 0]) but was never handed to `add_step`, so after construction its
`state` binding and tour reference are still null, contradicting the
claimed invariant for all reachable steps. -/
theorem tour_construction_binding_cx :
    (nodeAt
        (tourInit
          [SpecItem.single (STree.node ⟨"P", none, none, false, 0, none, false, false⟩
            [STree.node ⟨"C", none, none, false, 0, none, false, false⟩ []])]
          []).1 [0, 0]).map (fun t => t.data.stateRef) = some none ∧
      (nodeAt
        (tourInit
          [SpecItem.single (STree.node ⟨"P", none, none, false, 0, none, false, false⟩
            [STree.node ⟨"C", none, none, false, 0, none, false, false⟩ []])]
          []).1 [0, 0]).map (fun t => t.data.hasTour) = some false ∧
      allNodesBound
        (tourInit
          [SpecItem.single (STree.node ⟨"P", none, none, false, 0, none, false, false⟩
            [STree.node ⟨"C", none, none, false, 0, none, false, false⟩ []])]
          []).2
        (tourInit
          [SpecItem.single (STree.node ⟨"P", none, none, false, 0, none, false, false⟩
            [STree.node ⟨"C", none, none, false, 0, none, false, false⟩ []])]
          []).1 = false := by
  refine ⟨?_, ?_, ?_⟩ <;>
    simp [tourInit, addItems, determineState, rootData, nodeAt, STree.data, STree.children,
      allNodesBound_node, dataBound]

/-! ### Keyboard-interrupt recovery -/

/-- C3 counterexample: "go back" at node 1 whose previous step (index
0) is irreversible.  The handler returns the tour unchanged and stays
at the current node 1; it does not resume at the irreversible previous
step 0, so the claim's "control remains at the irreversible step" is
false — control remains at the current step instead, as the amended
claim states. -/
theorem goback_irreversible_cx :
    keyboardInterruptAction (fun _ => MenuAttempt.answered 0)
        ⟨[⟨"P", none, some (Val.vstr "x"), true, 0, some ScopeRef.top, true, false⟩,
          ⟨"Q", none, none, false, 0, some ScopeRef.top, true, false⟩],
         [("P", Val.vstr "x")]⟩ 1 =
      KIOut.ok
        ⟨[⟨"P", none, some (Val.vstr "x"), true, 0, some ScopeRef.top, true, false⟩,
          ⟨"Q", none, none, false, 0, some ScopeRef.top, true, false⟩],
         [("P", Val.vstr "x")]⟩ 1 ∧
      ∀ (w' : TourW),
        keyboardInterruptAction (fun _ => MenuAttempt.answered 0)
            ⟨[⟨"P", none, some (Val.vstr "x"), true, 0, some ScopeRef.top, true, false⟩,
              ⟨"Q", none, none, false, 0, some ScopeRef.top, true, false⟩],
             [("P", Val.vstr "x")]⟩ 1 ≠ KIOut.ok w' 0 := by
  refine ⟨rfl, fun w' h => ?_⟩
  rw [show keyboardInterruptAction (fun _ => MenuAttempt.answered 0)
      ⟨[⟨"P", none, some (Val.vstr "x"), true, 0, some ScopeRef.top, true, false⟩,
        ⟨"Q", none, none, false, 0, some ScopeRef.top, true, false⟩],
       [("P", Val.vstr "x")]⟩ 1 =
      KIOut.ok
        ⟨[⟨"P", none, some (Val.vstr "x"), true, 0, some ScopeRef.top, true, false⟩,
          ⟨"Q", none, none, false, 0, some ScopeRef.top, true, false⟩],
         [("P", Val.vstr "x")]⟩ 1 from rfl] at h
  cases h

/-- C3 (amended): when "go back one step" is chosen at node `n + 1`
with previous step `p`: if `p.is_reversible()` then `p.undo()` runs
(fields reset, its state entry deleted, the scope written back) and
control resumes at `p`; if not, nothing is mutated and control remains
at the CURRENT node `n + 1` (with a diagnostic), not at the
irreversible step. -/
theorem goback_amended (stream : Nat → MenuAttempt) (w : TourW) (n : Nat) (p : SData)
    (ref : ScopeRef) (sc sc' : StateM)
    (ha : menuAction stream = some 0)
    (hp : w.steps.get? n = some p)
    (href : p.stateRef = some ref)
    (hres : resolveScope w.state ref = some sc)
    (hdel : delKey sc p.name = some sc') :
    (p.reversible = true →
        keyboardInterruptAction stream w (n + 1) =
          KIOut.ok
            ⟨w.steps.set n { p with response := none, completed := false },
             writeScope w.state ref sc'⟩ n) ∧
    (p.reversible = false →
        keyboardInterruptAction stream w (n + 1) = KIOut.ok w (n + 1)) := by
  have hp' : w.steps[n]? = some p := by
    rw [← List.get?_eq_getElem?]
    exact hp
  constructor <;> intro hrev <;>
    simp [keyboardInterruptAction, ha, hp, hp', hrev, undoInTour, undoStep, href, hres, hdel]

/-- Witness for the amended C3 with a reversible previous step "P"
holding its entry in the top-level scope. -/
theorem goback_amended_witness :
    menuAction (fun _ => MenuAttempt.answered 0) = some 0 ∧
      ((⟨[⟨"P", none, some (Val.vstr "x"), true, 0, some ScopeRef.top, true, true⟩,
          ⟨"Q", none, none, false, 0, some ScopeRef.top, true, false⟩],
         [("P", Val.vstr "x")]⟩ : TourW).steps.get? 0 =
        some ⟨"P", none, some (Val.vstr "x"), true, 0, some ScopeRef.top, true, true⟩) ∧
      ((⟨"P", none, some (Val.vstr "x"), true, 0, some ScopeRef.top, true, true⟩ :
          SData).reversible = true →
        keyboardInterruptAction (fun _ => MenuAttempt.answered 0)
            ⟨[⟨"P", none, some (Val.vstr "x"), true, 0, some ScopeRef.top, true, true⟩,
              ⟨"Q", none, none, false, 0, some ScopeRef.top, true, false⟩],
             [("P", Val.vstr "x")]⟩ 1 =
          KIOut.ok
            ⟨[⟨"P", none, some (Val.vstr "x"), true, 0, some ScopeRef.top, true, true⟩,
               ⟨"Q", none, none, false, 0, some ScopeRef.top, true, false⟩].set 0
                ⟨"P", none, none, false, 0, some ScopeRef.top, true, true⟩,
             writeScope [("P", Val.vstr "x")] ScopeRef.top []⟩ 0) := by
  have hgb := goback_amended (fun _ => MenuAttempt.answered 0)
    ⟨[⟨"P", none, some (Val.vstr "x"), true, 0, some ScopeRef.top, true, true⟩,
      ⟨"Q", none, none, false, 0, some ScopeRef.top, true, false⟩],
     [("P", Val.vstr "x")]⟩ 0
    ⟨"P", none, some (Val.vstr "x"), true, 0, some ScopeRef.top, true, true⟩
    ScopeRef.top [("P", Val.vstr "x")] [] rfl rfl rfl rfl rfl
  exact ⟨rfl, rfl, hgb.1⟩

/-- C4: the interrupt that interrupted the step plus one more interrupt
while the recovery menu is being composed are tolerated — the menu is
re-prompted once and the chosen action is dispatched exactly as if it
had been answered at the first attempt — while a third consecutive
interrupt (the second one during the recovery prompt itself) leaves the
action `None` and forces `sys.exit(1)`. -/
theorem interrupt_tolerance (a : Nat) (w : TourW) (cur : Nat)
    (s1 s2 s3 : Nat → MenuAttempt)
    (h1 : s1 0 = MenuAttempt.interrupted) (h2 : s1 1 = MenuAttempt.answered a)
    (h3 : s2 0 = MenuAttempt.answered a)
    (h4 : s3 0 = MenuAttempt.interrupted) (h5 : s3 1 = MenuAttempt.interrupted) :
    keyboardInterruptAction s1 w cur = keyboardInterruptAction s2 w cur ∧
      menuTries s1 = 2 ∧
      keyboardInterruptAction s3 w cur = KIOut.exited 1 := by
  have hm1 : menuAction s1 = some a := by simp [menuAction, h1, h2]
  have hm2 : menuAction s2 = some a := by simp [menuAction, h3]
  have hm3 : menuAction s3 = none := by simp [menuAction, h4, h5]
  refine ⟨?_, ?_, ?_⟩
  · simp only [keyboardInterruptAction, hm1, hm2]
  · simp [menuTries, h1]
  · simp [keyboardInterruptAction, hm3]

/-- Witness for C4 at choice 2 ("view the question tree") on an empty
tour. -/
theorem interrupt_tolerance_witness :
    keyboardInterruptAction
        (fun n => match n with | 0 => MenuAttempt.interrupted | _ => MenuAttempt.answered 2)
        ⟨[], []⟩ 0 =
      keyboardInterruptAction (fun _ => MenuAttempt.answered 2) ⟨[], []⟩ 0 ∧
      menuTries
        (fun n => match n with | 0 => MenuAttempt.interrupted | _ => MenuAttempt.answered 2) = 2 ∧
      keyboardInterruptAction (fun _ => MenuAttempt.interrupted) ⟨[], []⟩ 0 = KIOut.exited 1 :=
  interrupt_tolerance 2 ⟨[], []⟩ 0
    (fun n => match n with | 0 => MenuAttempt.interrupted | _ => MenuAttempt.answered 2)
    (fun _ => MenuAttempt.answered 2)
    (fun _ => MenuAttempt.interrupted)
    rfl rfl rfl rfl rfl

/-! ### Navigation and effect ordering -/

theorem get?_set_self {α : Type} :
    ∀ (l : List α) (i : Nat) (a c : α), l.get? i = some c → (l.set i a).get? i = some a
  | [], i, a, c => by intro h; simp [List.get?] at h
  | _ :: _, 0, a, c => by intro _; rfl
  | x :: xs, i + 1, a, c => by
      intro h
      simpa [List.get?, List.set] using get?_set_self xs i a c (by simpa [List.get?] using h)

theorem nodeAt_updateAt_self :
    ∀ (t : STree) (p : Path) (f : STree → STree) (nd : STree),
      nodeAt t p = some nd → nodeAt (updateAt t p f) p = some (f nd)
  | t, [], f, nd => by
      intro h
      simp only [nodeAt] at h ⊢
      rw [updateAt, Option.some.inj h]
  | .node d cs, i :: p, f, nd => by
      intro h
      simp only [nodeAt] at h
      cases hc : cs.get? i with
      | none => rw [hc] at h; cases h
      | some c =>
          rw [hc] at h
          simp only [updateAt, hc, nodeAt]
          rw [get?_set_self cs i _ c hc]
          exact nodeAt_updateAt_self c p f nd h

theorem nodeAt_append :
    ∀ (t : STree) (p q : Path), nodeAt t (p ++ q) = (nodeAt t p).bind (fun s => nodeAt s q)
  | t, [], q => by simp [nodeAt]
  | .node d cs, i :: p, q => by
      simp only [List.cons_append, nodeAt]
      cases hc : cs.get? i with
      | none => simp
      | some c => simp [nodeAt_append c p q]

/-- C7: (a) within any `Step.run()` retry chain, `effect()` fires iff
the chain ended with a successful `validate` (a `done` outcome); (b) in
a `Tour.run` iteration of a bound step that succeeds, the event order
is exactly "commit, then effect, then ask the navigation for the
successor"; (c) the successor is computed on the tree as grown by the
effect: when the effect appended children, the navigation's next node
is the first appended child. -/
theorem effect_after_commit_before_next
    (b : StepBehavior) (adds : List SpecItem) (tree : STree) (st : StateM) (cur : Path)
    (nd : STree) (ref : ScopeRef) (sc0 : StateM)
    (v : Option Val) (s' : SData) (sc' : Option StateM) (tr : List Ev)
    (hn : nodeAt tree cur = some nd)
    (href : nd.data.stateRef = some ref)
    (hres : resolveScope st ref = some sc0)
    (hrun : runAux b 0 nd.data (some sc0) = (RunOut.done v s' sc', tr)) :
    (∀ (attempt : Nat) (s : SData) (scope : Option StateM),
        Ev.effected ∈ (runAux b attempt s scope).2 ↔
          ∃ v0 s0 sc0', (runAux b attempt s scope).1 = RunOut.done v0 s0 sc0') ∧
      (∃ t, (tourIterate b adds tree st cur).2 = t ++ [Ev.committed, Ev.effected, Ev.askNext]) ∧
      (∀ (a : SpecItem) (rest : List SpecItem), adds = a :: rest →
        ∃ tree2 st2,
          (tourIterate b adds tree st cur).1 = IterOut.stepped tree2 st2 (some (cur ++ [0])) ∧
            (nodeAt tree2 (cur ++ [0])).map eraseTree = some (itemShape a)) := by
  have hchar := runAux_char b (21 - nd.data.failures) 0 nd.data (some sc0) rfl _ _ hrun
  obtain ⟨_, _, _, _, _, _, r, _, _, hsc⟩ := hchar.1 v s' sc' rfl
  have hsc' : sc' = some (setKey sc0 nd.data.name r) := by simpa using hsc
  subst hsc'
  rcases haddI : addItems adds nd.children (writeScope st ref (setKey sc0 nd.data.name r))
    with ⟨newChildren, st2⟩
  have hiter : tourIterate b adds tree st cur =
      (.stepped (updateAt tree cur (fun _ => .node s' newChildren)) st2
        (nextPath (updateAt tree cur (fun _ => .node s' newChildren)) cur),
       tr ++ [Ev.askNext]) := by
    simp [tourIterate, hn, href, hres, hrun, haddI]
  refine ⟨?_, ?_, ?_⟩
  · intro attempt s scope
    rcases hr : runAux b attempt s scope with ⟨out, tr0⟩
    have hc := runAux_char b (21 - s.failures) attempt s scope rfl out tr0 hr
    simpa using hc.2.2
  · obtain ⟨t, ht⟩ := hchar.2.1 v s' _ rfl
    refine ⟨t, ?_⟩
    rw [hiter]
    simp only [ht, doneTail]
    simp
  · intro a rest hadds
    subst hadds
    have hshape := addItems_shape (a :: rest) nd.children
      (writeScope st ref (setKey sc0 nd.data.name r))
    rw [haddI] at hshape
    simp only at hshape
    have hne : newChildren ≠ [] := by
      intro he
      rw [he] at hshape
      simp at hshape
    have hat : nodeAt (updateAt tree cur (fun _ => STree.node s' newChildren)) cur =
        some (STree.node s' newChildren) :=
      nodeAt_updateAt_self tree cur _ nd hn
    have hnext : nextPath (updateAt tree cur (fun _ => STree.node s' newChildren)) cur =
        some (cur ++ [0]) := by
      simp [nextPath, hat, List.isEmpty_iff, hne]
    refine ⟨updateAt tree cur (fun _ => STree.node s' newChildren), st2, ?_, ?_⟩
    · rw [hiter, hnext]
    · rw [nodeAt_append _ cur [0], hat]
      cases newChildren with
      | nil => exact absurd rfl hne
      | cons c0 cs0 =>
          have h0 : eraseTree c0 = itemShape a := by
            have := congrArg (fun l => l.head?) hshape
            simpa using this
          simp [nodeAt, h0]

/-- Witness for C7: a one-child tour at the step "A" (bound to the
top-level scope) whose effect appends the single child "K". -/
theorem effect_after_commit_before_next_witness :
    (∀ (attempt : Nat) (s : SData) (scope : Option StateM),
        Ev.effected ∈
            (runAux ⟨fun _ => Val.vstr "ok", fun r => r, fun _ => true⟩ attempt s scope).2 ↔
          ∃ v0 s0 sc0',
            (runAux ⟨fun _ => Val.vstr "ok", fun r => r, fun _ => true⟩ attempt s scope).1 =
              RunOut.done v0 s0 sc0') ∧
      (∃ t,
        (tourIterate ⟨fun _ => Val.vstr "ok", fun r => r, fun _ => true⟩
            [SpecItem.single (STree.node ⟨"K", none, none, false, 0, none, false, false⟩ [])]
            (STree.node ⟨"Root", none, none, false, 0, some ScopeRef.top, true, false⟩
              [STree.node ⟨"A", none, none, false, 0, some ScopeRef.top, true, false⟩ []])
            [] [0]).2 = t ++ [Ev.committed, Ev.effected, Ev.askNext]) ∧
      (∀ (a : SpecItem) (rest : List SpecItem),
        [SpecItem.single (STree.node ⟨"K", none, none, false, 0, none, false, false⟩ [])] =
            a :: rest →
        ∃ tree2 st2,
          (tourIterate ⟨fun _ => Val.vstr "ok", fun r => r, fun _ => true⟩
              [SpecItem.single (STree.node ⟨"K", none, none, false, 0, none, false, false⟩ [])]
              (STree.node ⟨"Root", none, none, false, 0, some ScopeRef.top, true, false⟩
                [STree.node ⟨"A", none, none, false, 0, some ScopeRef.top, true, false⟩ []])
              [] [0]).1 = IterOut.stepped tree2 st2 (some ([0] ++ [0])) ∧
            (nodeAt tree2 ([0] ++ [0])).map eraseTree = some (itemShape a)) := by
  refine effect_after_commit_before_next
    ⟨fun _ => Val.vstr "ok", fun r => r, fun _ => true⟩
    [SpecItem.single (STree.node ⟨"K", none, none, false, 0, none, false, false⟩ [])]
    (STree.node ⟨"Root", none, none, false, 0, some ScopeRef.top, true, false⟩
      [STree.node ⟨"A", none, none, false, 0, some ScopeRef.top, true, false⟩ []])
    [] [0]
    (STree.node ⟨"A", none, none, false, 0, some ScopeRef.top, true, false⟩ [])
    ScopeRef.top []
    (some (Val.vstr "ok"))
    ⟨"A", none, some (Val.vstr "ok"), true, 0, some ScopeRef.top, true, false⟩
    (some [("A", Val.vstr "ok")])
    [Ev.prompted, Ev.validated true, Ev.committed, Ev.effected]
    rfl rfl rfl ?_
  simp [runAux, STree.data, setKey]

end EV
